import Mathlib

/-!
# Verification of the YIN pitch detector (`src/wasm/pitch-detector/src/lib.rs`)

Shallow embedding of the Rust pitch-detector core over exact rationals:
`f32` samples, sample rates and thresholds become `ℚ`; the single square
root of the program (`calculate_rms`) is modelled over `ℝ` with
`Real.sqrt`, and the energy gate inside `detect_pitch_with_threshold` is
expressed by the equivalent squared comparison on `ℚ` (the bridging lemma
`calculate_rms_lt_hundredth_iff` below proves the two conditions
equivalent), keeping the whole detection pipeline computable.

Slice accesses `samples[i]` are modelled by `List.getD` with default `0`;
the `*Checked` variants at the end of the file replay the same pipeline
with every access through `getElem?`, propagating `none` on any
out-of-bounds access (the shallow model of an index panic), and are proved
to always return `some` of the unchecked result.
-/

namespace PitchDetector

/-- `MIN_FREQUENCY` constant from the source (line 6). -/
def MIN_FREQUENCY : ℚ := 60

/-- `MAX_FREQUENCY` constant from the source (line 7). -/
def MAX_FREQUENCY : ℚ := 2000

/-- `DEFAULT_THRESHOLD` constant from the source (line 8). -/
def DEFAULT_THRESHOLD : ℚ := 1 / 10

/-- `f32::EPSILON = 2^(-23)`, the machine epsilon used by the guards. -/
def f32Eps : ℚ := 1 / 2 ^ 23

/-- `samples.iter().map(|&x| x * x).sum()` from `calculate_rms`. -/
def sumSq (samples : List ℚ) : ℚ := (samples.map (fun x => x * x)).sum

/-- mean of the squared samples, `sum / samples.len()`. -/
def meanSq (samples : List ℚ) : ℚ := sumSq samples / (samples.length : ℚ)

/-- `calculate_rms` (source lines 111-118): `0.0` for the empty buffer,
`(sum / len).sqrt()` otherwise. -/
noncomputable def calculate_rms (samples : List ℚ) : ℝ :=
  if samples.isEmpty then 0 else Real.sqrt ((meanSq samples : ℚ) : ℝ)

/-- `difference[tau]` from Step 1 of `detect_pitch_with_threshold`
(source lines 40-48): sum over `i in 0..half_buffer_size` of
`(samples[i] - samples[i + tau])^2`. -/
def differenceAt (samples : List ℚ) (tau : ℕ) : ℚ :=
  ((List.range (samples.length / 2)).map (fun i =>
    let delta := samples.getD i 0 - samples.getD (i + tau) 0
    delta * delta)).sum

/-- the value of `running_sum` after the iteration for lag `tau` of the
CMNDF loop (source lines 53-56): the sum of `difference[1..=tau]`. -/
def runningSum (samples : List ℚ) (tau : ℕ) : ℚ :=
  ((List.range tau).map (fun k => differenceAt samples (k + 1))).sum

/-- `cmndf[tau]` from Step 2 (source lines 50-62): `1.0` at lag 0, and for
`tau ≥ 1` either `difference[tau] * tau / running_sum` or the fallback
`1.0` when the running sum is not positive. -/
def cmndfAt (samples : List ℚ) (tau : ℕ) : ℚ :=
  if tau = 0 then 1
  else if 0 < runningSum samples tau then
    differenceAt samples tau * (tau : ℚ) / runningSum samples tau
  else 1

/-- the `cmndf` array of Step 2 as a list of length `half_buffer_size`. -/
def cmndfList (samples : List ℚ) : List ℚ :=
  (List.range (samples.length / 2)).map (cmndfAt samples)

/-- the `while min_tau + 1 < half_buffer_size && cmndf[min_tau + 1] <
cmndf[min_tau]` descent of Step 3 (source lines 69-72), with explicit
fuel; the caller passes fuel `half_buffer_size`, enough for the loop to
reach its exit condition. -/
def descendFuel (samples : List ℚ) : ℕ → ℕ → ℕ
  | 0, t => t
  | fuel + 1, t =>
    if t + 1 < samples.length / 2 ∧ cmndfAt samples (t + 1) < cmndfAt samples t then
      descendFuel samples fuel (t + 1)
    else t

/-- the scan of Step 3 over a list of candidate lags: the first lag whose
CMNDF value is strictly below the threshold. -/
def findCrossing (samples : List ℚ) (threshold : ℚ) : List ℕ → Option ℕ
  | [] => none
  | t :: ts =>
    if cmndfAt samples t < threshold then some t
    else findCrossing samples threshold ts

/-- the first `tau` in `2..half_buffer_size` with `cmndf[tau] < threshold`
(the `break` scan of Step 3, source lines 64-76). -/
def firstCrossing (samples : List ℚ) (threshold : ℚ) : Option ℕ :=
  findCrossing samples threshold (List.range' 2 (samples.length / 2 - 2))

/-- `tau_estimate` at the end of Step 3: the first threshold crossing
descended to its local minimum, or `none` when no lag crosses. -/
def tauEstimate (samples : List ℚ) (threshold : ℚ) : Option ℕ :=
  (firstCrossing samples threshold).map
    (fun t => descendFuel samples (samples.length / 2) t)

/-- `better_tau` from Step 4 (source lines 83-96): parabolic interpolation
through `cmndf[tau-1], cmndf[tau], cmndf[tau+1]` when `tau` is strictly
interior and the curvature is not negligible, else `tau` itself. -/
def betterTau (samples : List ℚ) (tau : ℕ) : ℚ :=
  if 0 < tau ∧ tau < samples.length / 2 - 1 then
    let s0 := cmndfAt samples (tau - 1)
    let s1 := cmndfAt samples tau
    let s2 := cmndfAt samples (tau + 1)
    let denominator := 2 * s1 - s2 - s0
    if f32Eps < |denominator| then (tau : ℚ) + (s2 - s0) / (2 * denominator)
    else (tau : ℚ)
  else (tau : ℚ)

/-- `detect_pitch_with_threshold` (source lines 25-107).  The source's
energy gate is `calculate_rms(samples) < 0.01`; here it is the equivalent
squared test `meanSq samples < 1/10000` (see
`calculate_rms_lt_hundredth_iff`), which keeps the function computable. -/
def detect_pitch_with_threshold (samples : List ℚ) (sample_rate threshold : ℚ) : ℚ :=
  if samples.length < 2 then -1
  else if meanSq samples < 1 / 10000 then -1
  else
    match tauEstimate samples threshold with
    | none => -1
    | some tau =>
      let frequency := sample_rate / betterTau samples tau
      if frequency < MIN_FREQUENCY ∨ MAX_FREQUENCY < frequency then -1
      else frequency

/-- `detect_pitch` (source lines 19-21). -/
def detect_pitch (samples : List ℚ) (sample_rate : ℚ) : ℚ :=
  detect_pitch_with_threshold samples sample_rate DEFAULT_THRESHOLD

/-- `zero_lag_correlation` from `get_pitch_clarity` (source lines 136-138):
the energy over the first `half_buffer_size` samples. -/
def zeroLagCorrelation (samples : List ℚ) : ℚ :=
  ((List.range (samples.length / 2)).map (fun i =>
    samples.getD i 0 * samples.getD i 0)).sum

/-- `correlation` at lag `tau` in `get_pitch_clarity` (source lines
149-152): sum over `i in 0..(half_buffer_size - tau)` of
`samples[i] * samples[i + tau]`. -/
def correlationAt (samples : List ℚ) (tau : ℕ) : ℚ :=
  ((List.range (samples.length / 2 - tau)).map (fun i =>
    samples.getD i 0 * samples.getD (i + tau) 0)).sum

/-- `min_tau = (sample_rate / MAX_FREQUENCY) as usize` (source line 145):
Rust's float-to-usize cast truncates toward zero and saturates below at 0,
which on rationals is `Int.toNat ∘ Int.floor`. -/
def clarityMinTau (sample_rate : ℚ) : ℕ := (⌊sample_rate / MAX_FREQUENCY⌋).toNat

/-- `max_tau = ((sample_rate / MIN_FREQUENCY) as usize).min(half_buffer_size)`
(source line 146). -/
def clarityMaxTau (samples : List ℚ) (sample_rate : ℚ) : ℕ :=
  min (⌊sample_rate / MIN_FREQUENCY⌋).toNat (samples.length / 2)

/-- `max_correlation` after the scan over `min_tau..max_tau` (source lines
148-156), starting from `0.0` and keeping the largest correlation seen. -/
def maxCorrelation (samples : List ℚ) (sample_rate : ℚ) : ℚ :=
  ((List.range' (clarityMinTau sample_rate)
      (clarityMaxTau samples sample_rate - clarityMinTau sample_rate)).map
    (fun t => correlationAt samples t)).foldl (fun m c => if m < c then c else m) 0

/-- `get_pitch_clarity` (source lines 123-160); `.clamp(0.0, 1.0)` is the
two-sided conditional of Rust's `f32::clamp`. -/
def get_pitch_clarity (samples : List ℚ) (sample_rate : ℚ) : ℚ :=
  if samples.length < 2 then 0
  else if zeroLagCorrelation samples < f32Eps then 0
  else
    let x := maxCorrelation samples sample_rate / zeroLagCorrelation samples
    if x < 0 then 0 else if 1 < x then 1 else x

/-- a 12-sample period-4 test signal used to instantiate theorems on a
concrete input. -/
def demoSamples : List ℚ := [1, 0, -1, 0, 1, 0, -1, 0, 1, 0, -1, 0]

example : cmndfAt demoSamples 4 = 0 := by
  norm_num [cmndfAt, runningSum, differenceAt, demoSamples, List.range_succ]

example : cmndfAt demoSamples 3 = 3 / 4 := by
  norm_num [cmndfAt, runningSum, differenceAt, demoSamples, List.range_succ]

example : betterTau demoSamples 4 = 55 / 14 := by
  norm_num [betterTau, cmndfAt, runningSum, differenceAt, demoSamples, f32Eps,
    List.range_succ, abs_of_nonneg, abs_of_nonpos]

example : detect_pitch_with_threshold demoSamples 440 (1 / 10) = 112 := by
  norm_num [detect_pitch_with_threshold, tauEstimate, firstCrossing, findCrossing,
    descendFuel, betterTau, cmndfAt, runningSum, differenceAt, meanSq, sumSq,
    demoSamples, f32Eps, MIN_FREQUENCY, MAX_FREQUENCY, List.range_succ,
    List.range'_succ, abs_of_nonneg, abs_of_nonpos]

example : get_pitch_clarity demoSamples 440 = 1 := by
  norm_num [get_pitch_clarity, maxCorrelation, correlationAt, zeroLagCorrelation,
    clarityMinTau, clarityMaxTau, demoSamples, f32Eps, MIN_FREQUENCY, MAX_FREQUENCY,
    List.range_succ, List.range'_succ]

/-! ## Basic facts about the embedded functions -/

lemma sumSq_nonneg (samples : List ℚ) : 0 ≤ sumSq samples := by
  refine List.sum_nonneg ?_
  intro x hx
  simp only [List.mem_map] at hx
  obtain ⟨a, -, rfl⟩ := hx
  exact mul_self_nonneg a

lemma meanSq_nonneg (samples : List ℚ) : 0 ≤ meanSq samples :=
  div_nonneg (sumSq_nonneg samples) (by positivity)

/-- the energy gate of the source, `calculate_rms(samples) < 0.01`, agrees
with the squared comparison used in the computable embedding of
`detect_pitch_with_threshold`. -/
lemma calculate_rms_lt_hundredth_iff (samples : List ℚ) (h : samples ≠ []) :
    (calculate_rms samples < 1 / 100 ↔ meanSq samples < 1 / 10000) := by
  unfold calculate_rms
  rw [if_neg (by simpa using h)]
  rw [Real.sqrt_lt' (by norm_num)]
  rw [show ((1 : ℝ) / 100) ^ 2 = ((1 / 10000 : ℚ) : ℝ) by norm_num]
  exact Rat.cast_lt

lemma f32Eps_pos : 0 < f32Eps := by norm_num [f32Eps]

lemma differenceAt_nonneg (samples : List ℚ) (tau : ℕ) :
    0 ≤ differenceAt samples tau := by
  refine List.sum_nonneg ?_
  intro x hx
  simp only [List.mem_map] at hx
  obtain ⟨i, -, rfl⟩ := hx
  exact mul_self_nonneg _

lemma runningSum_nonneg (samples : List ℚ) (tau : ℕ) :
    0 ≤ runningSum samples tau := by
  refine List.sum_nonneg ?_
  intro x hx
  simp only [List.mem_map] at hx
  obtain ⟨k, -, rfl⟩ := hx
  exact differenceAt_nonneg samples (k + 1)

lemma cmndfAt_nonneg (samples : List ℚ) (tau : ℕ) : 0 ≤ cmndfAt samples tau := by
  unfold cmndfAt
  split
  · exact zero_le_one
  · split
    · refine div_nonneg (mul_nonneg (differenceAt_nonneg samples tau) ?_) ?_
      · positivity
      · next h => exact le_of_lt h
    · exact zero_le_one

/-! ## C4: `calculate_rms` -/

/-- C4: `calculate_rms` returns exactly `0.0` for the empty buffer, the
square root of the mean of the squared samples for every non-empty buffer,
and on `[1, -1, 1, -1]` a value within `0.01` of `1`. -/
theorem c4_calculate_rms_spec :
    calculate_rms [] = 0 ∧
    (∀ samples : List ℚ, samples ≠ [] →
      calculate_rms samples =
        Real.sqrt ((sumSq samples : ℝ) / (samples.length : ℝ))) ∧
    |calculate_rms [1, -1, 1, -1] - 1| < 1 / 100 := by
  refine ⟨by simp [calculate_rms], ?_, ?_⟩
  · intro samples h
    unfold calculate_rms
    rw [if_neg (by simpa using h)]
    congr 1
    rw [meanSq]
    push_cast
    ring
  · have h1 : meanSq [1, -1, 1, -1] = 1 := by norm_num [meanSq, sumSq]
    unfold calculate_rms
    rw [if_neg (by simp), h1]
    norm_num [Real.sqrt_one]

/-! ## C3: `get_pitch_clarity` -/

/-- C3: `get_pitch_clarity` always lies in `[0, 1]`; it is `0` exactly on
the negligible-energy branch (`zero_lag_correlation < f32::EPSILON`, which
subsumes the `buffer_size < 2` early return), and otherwise is the maximal
band-limited autocorrelation over the zero-lag energy clamped to `[0, 1]`. -/
theorem c3_clarity_spec (samples : List ℚ) (sample_rate : ℚ) :
    0 ≤ get_pitch_clarity samples sample_rate ∧
    get_pitch_clarity samples sample_rate ≤ 1 ∧
    get_pitch_clarity samples sample_rate =
      (if zeroLagCorrelation samples < f32Eps then 0
       else min (max (maxCorrelation samples sample_rate /
         zeroLagCorrelation samples) 0) 1) := by
  have hclamp : ∀ x : ℚ, (if x < 0 then 0 else if 1 < x then 1 else x) =
      min (max x 0) 1 := by
    intro x
    rcases lt_or_le x 0 with h0 | h0
    · rw [if_pos h0, max_eq_right h0.le, min_eq_left zero_le_one]
    · rw [if_neg (not_lt.mpr h0), max_eq_left h0]
      rcases lt_or_le 1 x with h1 | h1
      · rw [if_pos h1, min_eq_right h1.le]
      · rw [if_neg (not_lt.mpr h1), min_eq_left h1]
  unfold get_pitch_clarity
  by_cases hlen : samples.length < 2
  · have hzero : zeroLagCorrelation samples = 0 := by
      have hH : samples.length / 2 = 0 := by omega
      simp [zeroLagCorrelation, hH]
    rw [if_pos hlen, if_pos (by rw [hzero]; exact f32Eps_pos)]
    refine ⟨le_rfl, zero_le_one, ?_⟩
    simp
  · rw [if_neg hlen]
    by_cases he : zeroLagCorrelation samples < f32Eps
    · rw [if_pos he, if_pos he]
      refine ⟨le_rfl, zero_le_one, ?_⟩
      simp
    · rw [if_neg he, if_neg he]
      simp only [hclamp]
      refine ⟨?_, ?_, trivial⟩
      · exact le_min (le_max_right _ 0) zero_le_one
      · exact min_le_right _ 1

/-! ## C10: non-positive thresholds never select a lag -/

lemma findCrossing_eq_none (samples : List ℚ) (threshold : ℚ) (l : List ℕ)
    (h : ∀ t ∈ l, ¬ cmndfAt samples t < threshold) :
    findCrossing samples threshold l = none := by
  induction l with
  | nil => rfl
  | cons t ts ih =>
    unfold findCrossing
    rw [if_neg (h t (List.mem_cons_self t ts))]
    exact ih fun u hu => h u (List.mem_cons_of_mem t hu)

/-- C10: for any threshold `≤ 0` the comparison `cmndf[tau] < threshold`
can never succeed (every CMNDF entry is non-negative), so
`detect_pitch_with_threshold` returns the sentinel `-1` on every input. -/
theorem c10_nonpositive_threshold (samples : List ℚ) (sample_rate threshold : ℚ)
    (h : threshold ≤ 0) :
    detect_pitch_with_threshold samples sample_rate threshold = -1 := by
  unfold detect_pitch_with_threshold
  split
  · rfl
  · split
    · rfl
    · have hfc : firstCrossing samples threshold = none := by
        unfold firstCrossing
        exact findCrossing_eq_none samples threshold _
          (fun t _ => not_lt.mpr (h.trans (cmndfAt_nonneg samples t)))
      have hnone : tauEstimate samples threshold = none := by
        simp [tauEstimate, hfc]
      rw [hnone]

/-- concrete instance of C10: the zero threshold on a loud buffer. -/
theorem c10_witness :
    detect_pitch_with_threshold [1, 0, -1, 0] 1000 0 = -1 :=
  c10_nonpositive_threshold [1, 0, -1, 0] 1000 0 le_rfl

/-! ## The threshold scan and the local-minimum descent -/

lemma findCrossing_range'_none (samples : List ℚ) (threshold : ℚ) :
    ∀ n s, findCrossing samples threshold (List.range' s n) = none →
      ∀ t, s ≤ t → t < s + n → ¬ cmndfAt samples t < threshold := by
  intro n
  induction n with
  | zero => intro s _ t h1 h2; omega
  | succ n ih =>
    intro s hnone t h1 h2
    rw [List.range'_succ] at hnone
    unfold findCrossing at hnone
    by_cases hs : cmndfAt samples s < threshold
    · rw [if_pos hs] at hnone; exact absurd hnone (by simp)
    · rw [if_neg hs] at hnone
      rcases eq_or_lt_of_le h1 with rfl | hlt
      · exact hs
      · exact ih (s + 1) hnone t hlt (by omega)

lemma findCrossing_range'_some (samples : List ℚ) (threshold : ℚ) :
    ∀ n s t0, findCrossing samples threshold (List.range' s n) = some t0 →
      s ≤ t0 ∧ t0 < s + n ∧ cmndfAt samples t0 < threshold ∧
      ∀ u, s ≤ u → u < t0 → ¬ cmndfAt samples u < threshold := by
  intro n
  induction n with
  | zero => intro s t0 hsome; exact absurd hsome (by simp [findCrossing])
  | succ n ih =>
    intro s t0 hsome
    rw [List.range'_succ] at hsome
    unfold findCrossing at hsome
    by_cases hs : cmndfAt samples s < threshold
    · rw [if_pos hs] at hsome
      obtain rfl : s = t0 := by simpa using hsome
      exact ⟨le_rfl, by omega, hs, fun u hu1 hu2 => by omega⟩
    · rw [if_neg hs] at hsome
      obtain ⟨h1, h2, h3, h4⟩ := ih (s + 1) t0 hsome
      refine ⟨by omega, by omega, h3, ?_⟩
      intro u hu1 hu2
      rcases eq_or_lt_of_le hu1 with rfl | hlt
      · exact hs
      · exact h4 u hlt hu2

lemma findCrossing_range'_isSome (samples : List ℚ) (threshold : ℚ)
    (n s t : ℕ) (h1 : s ≤ t) (h2 : t < s + n)
    (h3 : cmndfAt samples t < threshold) :
    ∃ t0, findCrossing samples threshold (List.range' s n) = some t0 := by
  cases hfc : findCrossing samples threshold (List.range' s n) with
  | none => exact absurd h3 (findCrossing_range'_none samples threshold n s hfc t h1 h2)
  | some t0 => exact ⟨t0, rfl⟩

lemma firstCrossing_none_iff (samples : List ℚ) (threshold : ℚ) :
    firstCrossing samples threshold = none ↔
      ∀ t, 2 ≤ t → t < samples.length / 2 → ¬ cmndfAt samples t < threshold := by
  constructor
  · intro hnone t h1 h2
    exact findCrossing_range'_none samples threshold _ 2 hnone t h1 (by omega)
  · intro hall
    cases hfc : firstCrossing samples threshold with
    | none => rfl
    | some t0 =>
      obtain ⟨h1, h2, h3, -⟩ := findCrossing_range'_some samples threshold _ 2 t0 hfc
      exact absurd h3 (hall t0 h1 (by omega))

lemma firstCrossing_some_spec (samples : List ℚ) (threshold : ℚ) (t0 : ℕ)
    (h : firstCrossing samples threshold = some t0) :
    2 ≤ t0 ∧ t0 < samples.length / 2 ∧ cmndfAt samples t0 < threshold ∧
    ∀ u, 2 ≤ u → u < t0 → ¬ cmndfAt samples u < threshold := by
  obtain ⟨h1, h2, h3, h4⟩ := findCrossing_range'_some samples threshold _ 2 t0 h
  exact ⟨h1, by omega, h3, h4⟩

lemma descendFuel_spec (samples : List ℚ) :
    ∀ fuel t, samples.length / 2 ≤ t + fuel →
      t ≤ descendFuel samples fuel t ∧
      (t < samples.length / 2 → descendFuel samples fuel t < samples.length / 2) ∧
      (∀ k, t ≤ k → k < descendFuel samples fuel t →
        cmndfAt samples (k + 1) < cmndfAt samples k) ∧
      ¬(descendFuel samples fuel t + 1 < samples.length / 2 ∧
        cmndfAt samples (descendFuel samples fuel t + 1) <
          cmndfAt samples (descendFuel samples fuel t)) := by
  intro fuel
  induction fuel with
  | zero =>
    intro t hft
    simp only [descendFuel]
    refine ⟨le_rfl, fun h => h, fun k h1 h2 => by omega, ?_⟩
    rintro ⟨h1, -⟩
    omega
  | succ fuel ih =>
    intro t hft
    by_cases hc : t + 1 < samples.length / 2 ∧
        cmndfAt samples (t + 1) < cmndfAt samples t
    · have hunf : descendFuel samples (fuel + 1) t = descendFuel samples fuel (t + 1) := by
        conv_lhs => unfold descendFuel
        rw [if_pos hc]
      obtain ⟨ih1, ih2, ih3, ih4⟩ := ih (t + 1) (by omega)
      rw [hunf]
      refine ⟨by omega, fun _ => ih2 hc.1, ?_, ih4⟩
      intro k h1 h2
      rcases eq_or_lt_of_le h1 with rfl | hlt
      · exact hc.2
      · exact ih3 k hlt h2
    · have hunf : descendFuel samples (fuel + 1) t = t := by
        unfold descendFuel
        rw [if_neg hc]
      rw [hunf]
      exact ⟨le_rfl, fun h => h, fun k h1 h2 => by omega, hc⟩

/-! ## C7: the CMNDF invariant -/

lemma runningSum_eq_sum_Icc (samples : List ℚ) (tau : ℕ) :
    runningSum samples tau = ∑ k in Finset.Icc 1 tau, differenceAt samples k := by
  induction tau with
  | zero => simp [runningSum]
  | succ n ih =>
    have hstep : runningSum samples (n + 1) =
        runningSum samples n + differenceAt samples (n + 1) := by
      unfold runningSum
      rw [List.range_succ, List.map_append, List.sum_append]
      simp
    rw [hstep, ih, Finset.sum_Icc_succ_top (by omega : 1 ≤ n + 1)]

/-- C7: `cmndf[0] = 1` exactly, and every other entry is the ratio
`difference[tau] * tau / running_sum` when the running sum of
`difference[1..tau]` is strictly positive, and the fallback `1` otherwise. -/
theorem c7_cmndf_invariant (samples : List ℚ) (h2 : 2 ≤ samples.length) :
    cmndfAt samples 0 = 1 ∧
    ∀ tau, 1 ≤ tau →
      (0 < ∑ k in Finset.Icc 1 tau, differenceAt samples k →
        cmndfAt samples tau = differenceAt samples tau * (tau : ℚ) /
          ∑ k in Finset.Icc 1 tau, differenceAt samples k) ∧
      (∑ k in Finset.Icc 1 tau, differenceAt samples k ≤ 0 →
        cmndfAt samples tau = 1) := by
  refine ⟨by simp [cmndfAt], ?_⟩
  intro tau htau
  have hrs := runningSum_eq_sum_Icc samples tau
  constructor
  · intro hpos
    unfold cmndfAt
    rw [if_neg (by omega), if_pos (by rw [hrs]; exact hpos), hrs]
  · intro hnp
    unfold cmndfAt
    rw [if_neg (by omega), if_neg (by rw [hrs]; exact not_lt.mpr hnp)]

/-- concrete instance of C7 on the demo signal. -/
theorem c7_witness :
    cmndfAt demoSamples 0 = 1 ∧
    ∀ tau, 1 ≤ tau →
      (0 < ∑ k in Finset.Icc 1 tau, differenceAt demoSamples k →
        cmndfAt demoSamples tau = differenceAt demoSamples tau * (tau : ℚ) /
          ∑ k in Finset.Icc 1 tau, differenceAt demoSamples k) ∧
      (∑ k in Finset.Icc 1 tau, differenceAt demoSamples k ≤ 0 →
        cmndfAt demoSamples tau = 1) :=
  c7_cmndf_invariant demoSamples (by norm_num [demoSamples])

/-! ## C6: parabolic interpolation -/

/-- C6: for a strictly interior selected lag, `better_tau` applies the
parabolic correction `tau + (s2 - s0) / (2 * denom)` exactly when
`|denom| = |2*s1 - s2 - s0|` exceeds `f32::EPSILON`, and falls back to
`tau` otherwise; a non-interior lag is used as-is. -/
theorem c6_parabolic_interpolation (samples : List ℚ) (tau : ℕ) :
    ((0 < tau ∧ tau < samples.length / 2 - 1) →
      (f32Eps < |2 * cmndfAt samples tau - cmndfAt samples (tau + 1) -
          cmndfAt samples (tau - 1)| →
        betterTau samples tau = (tau : ℚ) +
          (cmndfAt samples (tau + 1) - cmndfAt samples (tau - 1)) /
            (2 * (2 * cmndfAt samples tau - cmndfAt samples (tau + 1) -
              cmndfAt samples (tau - 1)))) ∧
      (|2 * cmndfAt samples tau - cmndfAt samples (tau + 1) -
          cmndfAt samples (tau - 1)| ≤ f32Eps →
        betterTau samples tau = (tau : ℚ))) ∧
    (¬(0 < tau ∧ tau < samples.length / 2 - 1) →
      betterTau samples tau = (tau : ℚ)) := by
  constructor
  · intro hint
    constructor
    · intro hden
      unfold betterTau
      rw [if_pos hint]
      show (if f32Eps < |2 * cmndfAt samples tau - cmndfAt samples (tau + 1) -
          cmndfAt samples (tau - 1)| then _ else _) = _
      rw [if_pos hden]
    · intro hden
      unfold betterTau
      rw [if_pos hint]
      show (if f32Eps < |2 * cmndfAt samples tau - cmndfAt samples (tau + 1) -
          cmndfAt samples (tau - 1)| then _ else _) = _
      rw [if_neg (not_lt.mpr hden)]
  · intro hnint
    unfold betterTau
    rw [if_neg hnint]

/-! ## C5: threshold crossing and local-minimum refinement -/

/-- C5: when some lag in `[2, half_buffer_size)` crosses the threshold,
the scan stops at the first such lag `t0` and the selected lag is reached
from `t0` by advancing while the CMNDF strictly decreases; at the selected
lag either the next index is out of bounds or the CMNDF no longer
decreases. -/
theorem c5_local_minimum_descent (samples : List ℚ) (threshold : ℚ)
    (h : ∃ t, 2 ≤ t ∧ t < samples.length / 2 ∧ cmndfAt samples t < threshold) :
    ∃ t0 tstar,
      firstCrossing samples threshold = some t0 ∧
      2 ≤ t0 ∧ t0 < samples.length / 2 ∧ cmndfAt samples t0 < threshold ∧
      (∀ u, 2 ≤ u → u < t0 → ¬ cmndfAt samples u < threshold) ∧
      tauEstimate samples threshold = some tstar ∧
      t0 ≤ tstar ∧
      (∀ k, t0 ≤ k → k < tstar → cmndfAt samples (k + 1) < cmndfAt samples k) ∧
      (tstar + 1 = samples.length / 2 ∨
        cmndfAt samples tstar ≤ cmndfAt samples (tstar + 1)) := by
  obtain ⟨t, ht1, ht2, ht3⟩ := h
  obtain ⟨t0, hfc⟩ : ∃ t0, firstCrossing samples threshold = some t0 := by
    unfold firstCrossing
    exact findCrossing_range'_isSome samples threshold _ 2 t ht1 (by omega) ht3
  obtain ⟨h1, h2, h3, h4⟩ := firstCrossing_some_spec samples threshold t0 hfc
  obtain ⟨hd1, hd2, hd3, hd4⟩ :=
    descendFuel_spec samples (samples.length / 2) t0 (by omega)
  refine ⟨t0, descendFuel samples (samples.length / 2) t0, hfc, h1, h2, h3, h4,
    ?_, hd1, hd3, ?_⟩
  · unfold tauEstimate
    rw [hfc]
    rfl
  · have htsH : descendFuel samples (samples.length / 2) t0 < samples.length / 2 :=
      hd2 h2
    rcases not_and_or.mp hd4 with hA | hB
    · left; omega
    · right; exact not_lt.mp hB

/-- concrete instance of C5 on the demo signal: the dip at lag 4. -/
theorem c5_witness :
    ∃ t0 tstar,
      firstCrossing demoSamples (1 / 10) = some t0 ∧
      2 ≤ t0 ∧ t0 < demoSamples.length / 2 ∧ cmndfAt demoSamples t0 < 1 / 10 ∧
      (∀ u, 2 ≤ u → u < t0 → ¬ cmndfAt demoSamples u < 1 / 10) ∧
      tauEstimate demoSamples (1 / 10) = some tstar ∧
      t0 ≤ tstar ∧
      (∀ k, t0 ≤ k → k < tstar → cmndfAt demoSamples (k + 1) < cmndfAt demoSamples k) ∧
      (tstar + 1 = demoSamples.length / 2 ∨
        cmndfAt demoSamples tstar ≤ cmndfAt demoSamples (tstar + 1)) :=
  c5_local_minimum_descent demoSamples (1 / 10)
    ⟨4, by norm_num [demoSamples, cmndfAt, runningSum, differenceAt, List.range_succ]⟩

/-! ## C2: every non-sentinel result is an in-band frequency -/

/-- C2: whenever `detect_pitch_with_threshold` does not return the
sentinel `-1`, the returned value is `sample_rate / better_tau` for the
selected lag, and lies within `[MIN_FREQUENCY, MAX_FREQUENCY]`. -/
theorem c2_frequency_in_band (samples : List ℚ) (sample_rate threshold : ℚ)
    (h : detect_pitch_with_threshold samples sample_rate threshold ≠ -1) :
    ∃ tau, tauEstimate samples threshold = some tau ∧
      detect_pitch_with_threshold samples sample_rate threshold =
        sample_rate / betterTau samples tau ∧
      MIN_FREQUENCY ≤ sample_rate / betterTau samples tau ∧
      sample_rate / betterTau samples tau ≤ MAX_FREQUENCY := by
  by_cases hlen : samples.length < 2
  · exfalso
    apply h
    unfold detect_pitch_with_threshold
    rw [if_pos hlen]
  by_cases hgate : meanSq samples < 1 / 10000
  · exfalso
    apply h
    unfold detect_pitch_with_threshold
    rw [if_neg hlen, if_pos hgate]
  cases hte : tauEstimate samples threshold with
  | none =>
    exfalso
    apply h
    unfold detect_pitch_with_threshold
    rw [if_neg hlen, if_neg hgate, hte]
  | some tau =>
    have hdet : detect_pitch_with_threshold samples sample_rate threshold =
        (if sample_rate / betterTau samples tau < MIN_FREQUENCY ∨
            MAX_FREQUENCY < sample_rate / betterTau samples tau then -1
         else sample_rate / betterTau samples tau) := by
      unfold detect_pitch_with_threshold
      rw [if_neg hlen, if_neg hgate, hte]
    by_cases hout : sample_rate / betterTau samples tau < MIN_FREQUENCY ∨
        MAX_FREQUENCY < sample_rate / betterTau samples tau
    · exfalso
      apply h
      rw [hdet, if_pos hout]
    · have hval : detect_pitch_with_threshold samples sample_rate threshold =
          sample_rate / betterTau samples tau := by
        rw [hdet, if_neg hout]
      push_neg at hout
      exact ⟨tau, rfl, hval, hout.1, hout.2⟩

/-- concrete instance of C2: the demo signal detects 112 Hz at rate 440. -/
theorem c2_witness :
    ∃ tau, tauEstimate demoSamples (1 / 10) = some tau ∧
      detect_pitch_with_threshold demoSamples 440 (1 / 10) =
        440 / betterTau demoSamples tau ∧
      MIN_FREQUENCY ≤ 440 / betterTau demoSamples tau ∧
      440 / betterTau demoSamples tau ≤ MAX_FREQUENCY :=
  c2_frequency_in_band demoSamples 440 (1 / 10) (by
    norm_num [detect_pitch_with_threshold, tauEstimate, firstCrossing, findCrossing,
      descendFuel, betterTau, cmndfAt, runningSum, differenceAt, meanSq, sumSq,
      demoSamples, f32Eps, MIN_FREQUENCY, MAX_FREQUENCY, List.range_succ,
      List.range'_succ, abs_of_nonneg, abs_of_nonpos])

/-! ## C1: the sentinel is returned exactly on the four no-pitch conditions -/

/-- C1: `detect_pitch_with_threshold` returns the sentinel `-1` if and
only if the buffer is shorter than 2 samples, or its RMS is below `0.01`,
or no lag in `[2, half_buffer_size)` has CMNDF below the threshold, or the
resulting frequency `sample_rate / better_tau` falls outside
`[MIN_FREQUENCY, MAX_FREQUENCY]`. -/
theorem c1_sentinel_iff (samples : List ℚ) (sample_rate threshold : ℚ) :
    detect_pitch_with_threshold samples sample_rate threshold = -1 ↔
      (samples.length < 2 ∨
       calculate_rms samples < 1 / 100 ∨
       (∀ t, 2 ≤ t → t < samples.length / 2 → ¬ cmndfAt samples t < threshold) ∨
       (∃ tau, tauEstimate samples threshold = some tau ∧
         (sample_rate / betterTau samples tau < MIN_FREQUENCY ∨
          MAX_FREQUENCY < sample_rate / betterTau samples tau))) := by
  by_cases hlen : samples.length < 2
  · constructor
    · intro _
      exact Or.inl hlen
    · intro _
      unfold detect_pitch_with_threshold
      rw [if_pos hlen]
  · have hne : samples ≠ [] := by
      intro he
      rw [he] at hlen
      simp at hlen
    have hbr := calculate_rms_lt_hundredth_iff samples hne
    by_cases hgate : meanSq samples < 1 / 10000
    · constructor
      · intro _
        exact Or.inr (Or.inl (hbr.mpr hgate))
      · intro _
        unfold detect_pitch_with_threshold
        rw [if_neg hlen, if_pos hgate]
    · cases hte : tauEstimate samples threshold with
      | none =>
        have hfc : firstCrossing samples threshold = none := by
          have h0 := hte
          unfold tauEstimate at h0
          exact Option.map_eq_none'.mp h0
        constructor
        · intro _
          exact Or.inr (Or.inr (Or.inl
            (fun t a b => (firstCrossing_none_iff samples threshold).mp hfc t a b)))
        · intro _
          unfold detect_pitch_with_threshold
          rw [if_neg hlen, if_neg hgate, hte]
      | some tau =>
        have hdet : detect_pitch_with_threshold samples sample_rate threshold =
            (if sample_rate / betterTau samples tau < MIN_FREQUENCY ∨
                MAX_FREQUENCY < sample_rate / betterTau samples tau then -1
             else sample_rate / betterTau samples tau) := by
          unfold detect_pitch_with_threshold
          rw [if_neg hlen, if_neg hgate, hte]
        obtain ⟨t0, hfc⟩ : ∃ t0, firstCrossing samples threshold = some t0 := by
          cases hfc : firstCrossing samples threshold with
          | none =>
            have h0 : tauEstimate samples threshold = none := by
              unfold tauEstimate
              rw [hfc]
              rfl
            rw [hte] at h0
            exact absurd h0 (by simp)
          | some t0 => exact ⟨t0, rfl⟩
        obtain ⟨hx1, hx2, hx3, -⟩ := firstCrossing_some_spec samples threshold t0 hfc
        by_cases hout : sample_rate / betterTau samples tau < MIN_FREQUENCY ∨
            MAX_FREQUENCY < sample_rate / betterTau samples tau
        · rw [hdet, if_pos hout]
          constructor
          · intro _
            exact Or.inr (Or.inr (Or.inr ⟨tau, rfl, hout⟩))
          · intro _
            rfl
        · rw [hdet, if_neg hout]
          push_neg at hout
          constructor
          · intro heq
            exfalso
            have h60 := hout.1
            rw [heq] at h60
            norm_num [MIN_FREQUENCY] at h60
          · rintro (hc1 | hc2 | hc3 | hc4)
            · exact absurd hc1 hlen
            · exact absurd (hbr.mp hc2) hgate
            · exact absurd hx3 (hc3 t0 hx1 hx2)
            · obtain ⟨tau2, hte2, hout2⟩ := hc4
              obtain rfl : tau = tau2 := by simpa using hte2
              exfalso
              rcases hout2 with hq | hq
              · exact absurd hq (not_lt.mpr hout.1)
              · exact absurd hq (not_lt.mpr hout.2)

/-! ## C9: CMNDF is invariant under positive rescaling of the signal -/

lemma getD_map_mul (c : ℚ) (samples : List ℚ) (i : ℕ) :
    (samples.map (fun x => c * x)).getD i 0 = c * samples.getD i 0 := by
  rw [List.getD_eq_getElem?_getD, List.getD_eq_getElem?_getD, List.getElem?_map]
  cases samples[i]? with
  | none => simp
  | some x => simp

lemma sum_map_scale (c : ℚ) (f g : ℕ → ℚ) (l : List ℕ)
    (h : ∀ a ∈ l, f a = c * g a) :
    (l.map f).sum = c * (l.map g).sum := by
  rw [List.map_congr_left h, List.sum_map_mul_left]

lemma differenceAt_map_mul (samples : List ℚ) (c : ℚ) (tau : ℕ) :
    differenceAt (samples.map (fun x => c * x)) tau =
      c ^ 2 * differenceAt samples tau := by
  unfold differenceAt
  rw [List.length_map]
  refine sum_map_scale (c ^ 2) _ _ _ ?_
  intro i _
  simp only [getD_map_mul]
  ring

lemma runningSum_map_mul (samples : List ℚ) (c : ℚ) (tau : ℕ) :
    runningSum (samples.map (fun x => c * x)) tau =
      c ^ 2 * runningSum samples tau := by
  unfold runningSum
  exact sum_map_scale (c ^ 2) _ _ _ (fun k _ => differenceAt_map_mul samples c (k + 1))

lemma cmndfAt_map_mul (samples : List ℚ) (c : ℚ) (hc : c ≠ 0) (tau : ℕ) :
    cmndfAt (samples.map (fun x => c * x)) tau = cmndfAt samples tau := by
  unfold cmndfAt
  by_cases htau : tau = 0
  · rw [if_pos htau, if_pos htau]
  · have hc2 : (0 : ℚ) < c ^ 2 := by positivity
    rw [if_neg htau, if_neg htau, runningSum_map_mul, differenceAt_map_mul]
    by_cases hrs : 0 < runningSum samples tau
    · rw [if_pos (mul_pos hc2 hrs), if_pos hrs,
        show c ^ 2 * differenceAt samples tau * (tau : ℚ) =
          c ^ 2 * (differenceAt samples tau * (tau : ℚ)) by ring,
        mul_div_mul_left _ _ hc2.ne']
    · have hnp : c ^ 2 * runningSum samples tau ≤ 0 :=
        mul_nonpos_of_nonneg_of_nonpos hc2.le (not_lt.mp hrs)
      rw [if_neg (not_lt.mpr hnp), if_neg hrs]

lemma cmndfList_map_mul (samples : List ℚ) (c : ℚ) (hc : c ≠ 0) :
    cmndfList (samples.map (fun x => c * x)) = cmndfList samples := by
  unfold cmndfList
  rw [List.length_map]
  exact List.map_congr_left (fun tau _ => cmndfAt_map_mul samples c hc tau)

/-- C9: multiplying every sample by a positive constant leaves the whole
CMNDF array unchanged, so exactly the same lags satisfy
`cmndf[tau] < threshold` at any amplitude. -/
theorem c9_scale_invariance (samples : List ℚ) (c : ℚ) (h2 : 2 ≤ samples.length)
    (hc : 0 < c) :
    cmndfList (samples.map (fun x => c * x)) = cmndfList samples ∧
    ∀ tau threshold,
      (cmndfAt (samples.map (fun x => c * x)) tau < threshold ↔
        cmndfAt samples tau < threshold) := by
  refine ⟨cmndfList_map_mul samples c hc.ne', ?_⟩
  intro tau threshold
  rw [cmndfAt_map_mul samples c hc.ne' tau]

/-- concrete instance of C9: doubling the demo signal. -/
theorem c9_witness :
    cmndfList (demoSamples.map (fun x => 2 * x)) = cmndfList demoSamples ∧
    ∀ tau threshold,
      (cmndfAt (demoSamples.map (fun x => 2 * x)) tau < threshold ↔
        cmndfAt demoSamples tau < threshold) :=
  c9_scale_invariance demoSamples 2 (by norm_num [demoSamples]) (by norm_num)

/-! ## C8: the bounds-checked model

Every slice and array access of the Rust source is replayed here through
`getElem?`; an out-of-bounds access (a panic in Rust) propagates `none`
through the whole computation, as does the one `usize` subtraction
(`half_buffer_size - 1`) that could underflow and the subtraction
`half_buffer_size - tau` bounding the clarity loop.  `calculate_rms`
performs no indexing at all.  The theorem `c8_no_out_of_bounds` proves the
checked pipeline always returns `some` of the unchecked result. -/

/-- sequences optional values produced along a list of indices: `none` as
soon as any element is `none`. -/
def mapOpt (f : ℕ → Option ℚ) : List ℕ → Option (List ℚ)
  | [] => some []
  | i :: is =>
    (f i).bind fun x => (mapOpt f is).bind fun xs => some (x :: xs)

/-- Step 1 (`difference[tau]`) with both slice accesses checked. -/
def differenceAtChecked (samples : List ℚ) (tau : ℕ) : Option ℚ :=
  (mapOpt (fun i =>
    (samples[i]?).bind fun x =>
    (samples[i + tau]?).bind fun y =>
    some ((x - y) * (x - y))) (List.range (samples.length / 2))).map List.sum

/-- the `difference` array with all accesses checked. -/
def differenceListChecked (samples : List ℚ) : Option (List ℚ) :=
  mapOpt (differenceAtChecked samples) (List.range (samples.length / 2))

/-- Step 2 with the reads `difference[tau]` checked and the initial write
`cmndf[0] = 1.0` requiring a non-empty array. -/
def cmndfListChecked (samples : List ℚ) : Option (List ℚ) :=
  (differenceListChecked samples).bind fun diff =>
  if samples.length / 2 = 0 then none
  else
    mapOpt (fun tau =>
      if tau = 0 then some 1
      else
        (diff[tau]?).bind fun d =>
        some (if 0 < runningSum samples tau then
                d * (tau : ℚ) / runningSum samples tau
              else 1)) (List.range (samples.length / 2))

/-- the Step 3 descent with both `cmndf` reads checked. -/
def descendChecked (cm : List ℚ) (H : ℕ) : ℕ → ℕ → Option ℕ
  | 0, t => some t
  | fuel + 1, t =>
    if t + 1 < H then
      (cm[t + 1]?).bind fun a =>
      (cm[t]?).bind fun b =>
      if a < b then descendChecked cm H fuel (t + 1) else some t
    else some t

/-- the Step 3 scan with the read `cmndf[tau]` checked: `some none` when
no lag crosses, `some (some tau*)` for the descended first crossing,
`none` on any out-of-bounds access. -/
def searchChecked (cm : List ℚ) (H : ℕ) (threshold : ℚ) : List ℕ → Option (Option ℕ)
  | [] => some none
  | t :: ts =>
    (cm[t]?).bind fun v =>
    if v < threshold then (descendChecked cm H H t).map some
    else searchChecked cm H threshold ts

/-- Step 4 with the three `cmndf` reads checked; the `usize` subtraction
`half_buffer_size - 1` (evaluated when `tau > 0`) is treated as a panic
when `half_buffer_size = 0`. -/
def betterTauChecked (cm : List ℚ) (H : ℕ) (tau : ℕ) : Option ℚ :=
  if 0 < tau then
    if H = 0 then none
    else if tau < H - 1 then
      (cm[tau - 1]?).bind fun s0 =>
      (cm[tau]?).bind fun s1 =>
      (cm[tau + 1]?).bind fun s2 =>
      some (if f32Eps < |2 * s1 - s2 - s0| then
              (tau : ℚ) + (s2 - s0) / (2 * (2 * s1 - s2 - s0))
            else (tau : ℚ))
    else some (tau : ℚ)
  else some (tau : ℚ)

/-- `detect_pitch_with_threshold` with every array access checked. -/
def detect_pitch_with_threshold_checked (samples : List ℚ)
    (sample_rate threshold : ℚ) : Option ℚ :=
  if samples.length < 2 then some (-1)
  else if meanSq samples < 1 / 10000 then some (-1)
  else
    (cmndfListChecked samples).bind fun cm =>
    (searchChecked cm (samples.length / 2) threshold
      (List.range' 2 (samples.length / 2 - 2))).bind fun r =>
    match r with
    | none => some (-1)
    | some tau =>
      (betterTauChecked cm (samples.length / 2) tau).bind fun bt =>
      some (if sample_rate / bt < MIN_FREQUENCY ∨ MAX_FREQUENCY < sample_rate / bt
            then -1 else sample_rate / bt)

/-- `detect_pitch` with every array access checked. -/
def detect_pitch_checked (samples : List ℚ) (sample_rate : ℚ) : Option ℚ :=
  detect_pitch_with_threshold_checked samples sample_rate DEFAULT_THRESHOLD

/-- the zero-lag loop of `get_pitch_clarity` with accesses checked. -/
def zeroLagChecked (samples : List ℚ) : Option ℚ :=
  (mapOpt (fun i =>
    (samples[i]?).bind fun x => some (x * x))
    (List.range (samples.length / 2))).map List.sum

/-- one correlation with accesses checked; `none` also when the `usize`
bound `half_buffer_size - tau` would underflow. -/
def correlationAtChecked (samples : List ℚ) (tau : ℕ) : Option ℚ :=
  if tau ≤ samples.length / 2 then
    (mapOpt (fun i =>
      (samples[i]?).bind fun x =>
      (samples[i + tau]?).bind fun y =>
      some (x * y)) (List.range (samples.length / 2 - tau))).map List.sum
  else none

/-- `get_pitch_clarity` with every array access checked. -/
def get_pitch_clarity_checked (samples : List ℚ) (sample_rate : ℚ) : Option ℚ :=
  if samples.length < 2 then some 0
  else
    (zeroLagChecked samples).bind fun e =>
    if e < f32Eps then some 0
    else
      (mapOpt (correlationAtChecked samples)
        (List.range' (clarityMinTau sample_rate)
          (clarityMaxTau samples sample_rate - clarityMinTau sample_rate))).bind
        fun cors =>
      some (let m := cors.foldl (fun m c => if m < c then c else m) 0
            if m / e < 0 then 0 else if 1 < m / e then 1 else m / e)

lemma getElem?_eq_some_getD (samples : List ℚ) (i : ℕ) (h : i < samples.length) :
    samples[i]? = some (samples.getD i 0) := by
  rw [List.getD_eq_getElem?_getD, List.getElem?_eq_getElem h]
  rfl

lemma mapOpt_eq_some (f : ℕ → Option ℚ) (g : ℕ → ℚ) (l : List ℕ)
    (h : ∀ a ∈ l, f a = some (g a)) : mapOpt f l = some (l.map g) := by
  induction l with
  | nil => rfl
  | cons a l ih =>
    unfold mapOpt
    rw [h a (List.mem_cons_self a l), Option.some_bind,
      ih (fun b hb => h b (List.mem_cons_of_mem a hb)), Option.some_bind]
    rfl

lemma differenceAtChecked_eq (samples : List ℚ) (tau : ℕ)
    (h : tau < samples.length / 2) :
    differenceAtChecked samples tau = some (differenceAt samples tau) := by
  unfold differenceAtChecked differenceAt
  rw [mapOpt_eq_some _
    (fun i => (samples.getD i 0 - samples.getD (i + tau) 0) *
      (samples.getD i 0 - samples.getD (i + tau) 0)) _ ?_]
  · rfl
  · intro i hi
    have hi2 : i < samples.length / 2 := List.mem_range.mp hi
    rw [getElem?_eq_some_getD samples i (by omega), Option.some_bind,
      getElem?_eq_some_getD samples (i + tau) (by omega), Option.some_bind]

lemma differenceListChecked_eq (samples : List ℚ) :
    differenceListChecked samples =
      some ((List.range (samples.length / 2)).map (differenceAt samples)) :=
  mapOpt_eq_some _ _ _
    (fun tau ht => differenceAtChecked_eq samples tau (List.mem_range.mp ht))

lemma cmndfList_getElem? (samples : List ℚ) (t : ℕ) (h : t < samples.length / 2) :
    (cmndfList samples)[t]? = some (cmndfAt samples t) := by
  unfold cmndfList
  rw [List.getElem?_map, List.getElem?_range h]
  rfl

lemma cmndfListChecked_eq (samples : List ℚ) (h : 0 < samples.length / 2) :
    cmndfListChecked samples = some (cmndfList samples) := by
  unfold cmndfListChecked
  rw [differenceListChecked_eq, Option.some_bind, if_neg (by omega)]
  unfold cmndfList
  refine mapOpt_eq_some _ _ _ ?_
  intro tau ht
  have htau : tau < samples.length / 2 := List.mem_range.mp ht
  by_cases h0 : tau = 0
  · subst h0
    rw [if_pos rfl]
    simp [cmndfAt]
  · rw [if_neg h0, List.getElem?_map, List.getElem?_range htau, Option.map_some',
      Option.some_bind]
    unfold cmndfAt
    rw [if_neg h0]

lemma descendChecked_eq (samples : List ℚ) :
    ∀ fuel t, t < samples.length / 2 →
      descendChecked (cmndfList samples) (samples.length / 2) fuel t =
        some (descendFuel samples fuel t) := by
  intro fuel
  induction fuel with
  | zero =>
    intro t ht
    simp [descendChecked, descendFuel]
  | succ fuel ih =>
    intro t ht
    by_cases hb : t + 1 < samples.length / 2
    · have hunfL : descendChecked (cmndfList samples) (samples.length / 2)
          (fuel + 1) t =
          if cmndfAt samples (t + 1) < cmndfAt samples t then
            descendChecked (cmndfList samples) (samples.length / 2) fuel (t + 1)
          else some t := by
        conv_lhs => unfold descendChecked
        rw [if_pos hb, cmndfList_getElem? samples (t + 1) hb, Option.some_bind,
          cmndfList_getElem? samples t ht, Option.some_bind]
      have hunfR : descendFuel samples (fuel + 1) t =
          if t + 1 < samples.length / 2 ∧ cmndfAt samples (t + 1) < cmndfAt samples t
          then descendFuel samples fuel (t + 1) else t := by
        conv_lhs => unfold descendFuel
      rw [hunfL, hunfR]
      by_cases hlt : cmndfAt samples (t + 1) < cmndfAt samples t
      · rw [if_pos hlt, if_pos ⟨hb, hlt⟩]
        exact ih (t + 1) hb
      · rw [if_neg hlt, if_neg (fun hh => hlt hh.2)]
    · have hunfL : descendChecked (cmndfList samples) (samples.length / 2)
          (fuel + 1) t = some t := by
        conv_lhs => unfold descendChecked
        rw [if_neg hb]
      have hunfR : descendFuel samples (fuel + 1) t = t := by
        conv_lhs => unfold descendFuel
        rw [if_neg (fun hh => hb hh.1)]
      rw [hunfL, hunfR]

lemma searchChecked_eq (samples : List ℚ) (threshold : ℚ) :
    ∀ ts : List ℕ, (∀ t ∈ ts, t < samples.length / 2) →
      searchChecked (cmndfList samples) (samples.length / 2) threshold ts =
        some ((findCrossing samples threshold ts).map
          (descendFuel samples (samples.length / 2))) := by
  intro ts
  induction ts with
  | nil => intro _; rfl
  | cons t ts ih =>
    intro hts
    have ht : t < samples.length / 2 := hts t (List.mem_cons_self t ts)
    have hunfL : searchChecked (cmndfList samples) (samples.length / 2) threshold
        (t :: ts) =
        if cmndfAt samples t < threshold then
          (descendChecked (cmndfList samples) (samples.length / 2)
            (samples.length / 2) t).map some
        else searchChecked (cmndfList samples) (samples.length / 2) threshold ts := by
      conv_lhs => unfold searchChecked
      rw [cmndfList_getElem? samples t ht, Option.some_bind]
    rw [hunfL]
    unfold findCrossing
    by_cases hc : cmndfAt samples t < threshold
    · rw [if_pos hc, if_pos hc, descendChecked_eq samples _ t ht]
      rfl
    · rw [if_neg hc, if_neg hc]
      exact ih (fun u hu => hts u (List.mem_cons_of_mem t hu))

lemma betterTauChecked_eq (samples : List ℚ) (h : 0 < samples.length / 2)
    (tau : ℕ) :
    betterTauChecked (cmndfList samples) (samples.length / 2) tau =
      some (betterTau samples tau) := by
  unfold betterTauChecked
  by_cases h0 : 0 < tau
  · rw [if_pos h0, if_neg (by omega : ¬ samples.length / 2 = 0)]
    by_cases h1 : tau < samples.length / 2 - 1
    · rw [if_pos h1, cmndfList_getElem? samples (tau - 1) (by omega), Option.some_bind,
        cmndfList_getElem? samples tau (by omega), Option.some_bind,
        cmndfList_getElem? samples (tau + 1) (by omega), Option.some_bind]
      unfold betterTau
      have hint : 0 < tau ∧ tau < samples.length / 2 - 1 := ⟨h0, h1⟩
      rw [if_pos hint]
    · rw [if_neg h1]
      unfold betterTau
      rw [if_neg (fun hh => h1 hh.2)]
  · rw [if_neg h0]
    unfold betterTau
    rw [if_neg (fun hh => h0 hh.1)]

lemma detect_pitch_with_threshold_checked_eq (samples : List ℚ)
    (sample_rate threshold : ℚ) :
    detect_pitch_with_threshold_checked samples sample_rate threshold =
      some (detect_pitch_with_threshold samples sample_rate threshold) := by
  unfold detect_pitch_with_threshold_checked detect_pitch_with_threshold
  by_cases hlen : samples.length < 2
  · rw [if_pos hlen, if_pos hlen]
  rw [if_neg hlen, if_neg hlen]
  by_cases hgate : meanSq samples < 1 / 10000
  · rw [if_pos hgate, if_pos hgate]
  rw [if_neg hgate, if_neg hgate]
  have hH : 0 < samples.length / 2 := by omega
  rw [cmndfListChecked_eq samples hH, Option.some_bind]
  rw [searchChecked_eq samples threshold _ ?bounds, Option.some_bind]
  case bounds =>
    intro t htmem
    obtain ⟨i, hi, rfl⟩ := List.mem_range'.mp htmem
    omega
  unfold tauEstimate firstCrossing
  cases hfc : findCrossing samples threshold
      (List.range' 2 (samples.length / 2 - 2)) with
  | none => rfl
  | some t0 =>
    show (betterTauChecked (cmndfList samples) (samples.length / 2)
        (descendFuel samples (samples.length / 2) t0)).bind
        (fun bt => some (if sample_rate / bt < MIN_FREQUENCY ∨
          MAX_FREQUENCY < sample_rate / bt then -1 else sample_rate / bt)) =
      some (if sample_rate / betterTau samples
            (descendFuel samples (samples.length / 2) t0) < MIN_FREQUENCY ∨
          MAX_FREQUENCY < sample_rate / betterTau samples
            (descendFuel samples (samples.length / 2) t0) then -1
        else sample_rate / betterTau samples
          (descendFuel samples (samples.length / 2) t0))
    rw [betterTauChecked_eq samples hH, Option.some_bind]

lemma zeroLagChecked_eq (samples : List ℚ) :
    zeroLagChecked samples = some (zeroLagCorrelation samples) := by
  unfold zeroLagChecked zeroLagCorrelation
  rw [mapOpt_eq_some _ (fun i => samples.getD i 0 * samples.getD i 0) _ ?_]
  · rfl
  · intro i hi
    have hi2 : i < samples.length / 2 := List.mem_range.mp hi
    rw [getElem?_eq_some_getD samples i (by omega), Option.some_bind]

lemma correlationAtChecked_eq (samples : List ℚ) (tau : ℕ)
    (h : tau ≤ samples.length / 2) :
    correlationAtChecked samples tau = some (correlationAt samples tau) := by
  unfold correlationAtChecked correlationAt
  rw [if_pos h]
  rw [mapOpt_eq_some _ (fun i => samples.getD i 0 * samples.getD (i + tau) 0) _ ?_]
  · rfl
  · intro i hi
    have hi2 : i < samples.length / 2 - tau := List.mem_range.mp hi
    rw [getElem?_eq_some_getD samples i (by omega), Option.some_bind,
      getElem?_eq_some_getD samples (i + tau) (by omega), Option.some_bind]

lemma get_pitch_clarity_checked_eq (samples : List ℚ) (sample_rate : ℚ) :
    get_pitch_clarity_checked samples sample_rate =
      some (get_pitch_clarity samples sample_rate) := by
  unfold get_pitch_clarity_checked get_pitch_clarity
  by_cases hlen : samples.length < 2
  · rw [if_pos hlen, if_pos hlen]
  rw [if_neg hlen, if_neg hlen, zeroLagChecked_eq, Option.some_bind]
  by_cases he : zeroLagCorrelation samples < f32Eps
  · rw [if_pos he, if_pos he]
  rw [if_neg he, if_neg he]
  rw [mapOpt_eq_some _ (correlationAt samples) _ ?_, Option.some_bind]
  · rfl
  · intro t htmem
    obtain ⟨i, hi, rfl⟩ := List.mem_range'.mp htmem
    have hmax : clarityMaxTau samples sample_rate ≤ samples.length / 2 :=
      min_le_right _ _
    exact correlationAtChecked_eq samples _ (by omega)

/-- C8: no exported function panics: every checked run returns `some` of
the unchecked result, so every array access is in bounds and no `usize`
subtraction underflows (`calculate_rms` performs no indexing). -/
theorem c8_no_out_of_bounds (samples : List ℚ) (sample_rate threshold : ℚ) :
    detect_pitch_with_threshold_checked samples sample_rate threshold =
      some (detect_pitch_with_threshold samples sample_rate threshold) ∧
    get_pitch_clarity_checked samples sample_rate =
      some (get_pitch_clarity samples sample_rate) ∧
    detect_pitch_checked samples sample_rate =
      some (detect_pitch samples sample_rate) :=
  ⟨detect_pitch_with_threshold_checked_eq samples sample_rate threshold,
   get_pitch_clarity_checked_eq samples sample_rate,
   detect_pitch_with_threshold_checked_eq samples sample_rate DEFAULT_THRESHOLD⟩

end PitchDetector
